import Mathlib

/-!
Shallow embedding of the SAT-Resonator TSP solver
(`backend/resonator_tsp.py` and `backend/app.py`).

Modelling conventions:
* Coordinates are integer pairs (the Python code uses floats; integer
  coordinates are the exactly-representable fragment, and the concrete
  scenarios in the design all use integer coordinates).  Squared
  Euclidean distances are then natural numbers and `round(sqrt(.))` is
  the executable `roundSqrt` below, proved equal to rounding the real
  square root.
* A distance table is consumed as a total function `ℕ → ℕ → ℕ`;
  `dOf` turns the concrete matrix produced by
  `compute_distance_matrix` into such a function.
* `math.cos` and `math.pi` are abstracted as parameters `cosF : ℚ → ℚ`
  and `piQ : ℚ`: every theorem below is universally quantified over
  them, so nothing depends on properties of the cosine.
* The `while` loop of `two_opt` is embedded with explicit fuel
  (`max_iterations`), exactly the cap the Python loop enforces.
-/

namespace Resonator

/-- Fuel-driven helper for the integer square root: starting from `r`,
keep incrementing while `(r+1)^2 ≤ m`. -/
def floorSqrtGo (m : ℕ) : ℕ → ℕ → ℕ
  | 0, r => r
  | fuel + 1, r => if (r + 1) * (r + 1) ≤ m then floorSqrtGo m fuel (r + 1) else r

/-- Integer square root: the largest `r` with `r*r ≤ m`. -/
def floorSqrt (m : ℕ) : ℕ := floorSqrtGo m m 0

/-- Rounding of the real square root, computed executably: since `m` is a natural
number, `Real.sqrt m` is never exactly halfway between two integers, so
rounding to the nearest integer is `r+1` iff `m > r*r + r` where `r` is
the integer square root.  This models the Python expression `int(round(math.sqrt(m)))`
in `compute_distance_matrix`. -/
def roundSqrt (m : ℕ) : ℕ :=
  let r := floorSqrt m
  if r * r + r < m then r + 1 else r

/-- Squared Euclidean distance `(xi-xj)**2 + (yi-yj)**2` between two
integer coordinates (a natural number). -/
def sqDist (p q : ℤ × ℤ) : ℕ := ((p.1 - q.1) ^ 2 + (p.2 - q.2) ^ 2).toNat

/-- Embedding of `compute_distance_matrix(coords)`: the n×n matrix of rounded
Euclidean distances, zero on the diagonal.  The Python loop fills only
`j > i` and mirrors the same value into `[j][i]`; since the distance
formula is symmetric in `i, j`, the resulting matrix is exactly the
entrywise description below. -/
def compute_distance_matrix (coords : List (ℤ × ℤ)) : List (List ℕ) :=
  (List.range coords.length).map fun i =>
    (List.range coords.length).map fun j =>
      if i = j then 0 else roundSqrt (sqDist (coords.getD i (0, 0)) (coords.getD j (0, 0)))

/-- Read a concrete matrix as a total distance function (Python indexing
`dist_matrix[i][j]`, total on valid indices). -/
def dOf (m : List (List ℕ)) : ℕ → ℕ → ℕ := fun i j => (m.getD i []).getD j 0

/-- Embedding of `compute_route_cost(route, dist_matrix)`: the sum over
`idx in range(n)` of `dist[route[idx]][route[(idx+1) % n]]`. -/
def compute_route_cost (route : List ℕ) (d : ℕ → ℕ → ℕ) : ℕ :=
  (List.range route.length).foldl
    (fun total idx =>
      total + d (route.getD idx 0) (route.getD ((idx + 1) % route.length) 0))
    0

/-- Embedding of `harmonic_values(n, N, amplitude, shift)`: for each `i < n`,
`theta = 2*pi*((i + shift)/n)` and the value is the accumulated sum of
`(amplitude/k) * cos(k*theta)` for `k = 1..N`.  `cosF` and `piQ` stand
for `math.cos` and `math.pi`. -/
def harmonic_values (cosF : ℚ → ℚ) (piQ : ℚ) (n N : ℕ) (amplitude shiftv : ℚ) : List ℚ :=
  (List.range n).map fun (i : ℕ) =>
    let theta := 2 * piQ * (((i : ℚ) + shiftv) / (n : ℚ))
    (List.range' 1 N).foldl (fun s (k : ℕ) => s + (amplitude / (k : ℚ)) * cosF ((k : ℚ) * theta)) 0

/-- Embedding of `generate_resonator_route(n, N, amplitude, shift)`: sort the indices
`0..n-1` by their harmonic value, ascending.  The Python builtin `sorted` is a
stable sort, modelled by `List.mergeSort`. -/
def generate_resonator_route (cosF : ℚ → ℚ) (piQ : ℚ) (n N : ℕ)
    (amplitude shiftv : ℚ) : List ℕ :=
  let values := harmonic_values cosF piQ n N amplitude shiftv
  (List.range n).mergeSort fun a b => decide (values.getD a 0 ≤ values.getD b 0)

/-- The cost delta computed in the inner loop of `two_opt` for the pair
`(i, j)`: with `a, b = route[i-1], route[i]` and
`c, e = route[j-1], route[j % n]`, the delta is
`(dist[a][c] + dist[b][e]) - (dist[a][b] + dist[c][e])`. -/
def deltaAt (route : List ℕ) (d : ℕ → ℕ → ℕ) (n i j : ℕ) : ℤ :=
  let a := route.getD (i - 1) 0
  let b := route.getD i 0
  let c := route.getD (j - 1) 0
  let e := route.getD (j % n) 0
  ((d a c : ℤ) + (d b e : ℤ)) - ((d a b : ℤ) + (d c e : ℤ))

/-- The pairs `(i, j)` visited by the nested loops of `two_opt`:
`i in range(1, n-1)`, `j in range(i+1, n)`, skipping `j - i == 1`. -/
def scanPairs (n : ℕ) : List (ℕ × ℕ) :=
  (List.range' 1 (n - 1 - 1)).flatMap fun i =>
    ((List.range' (i + 1) (n - (i + 1))).filter fun j => j - i ≠ 1).map fun j => (i, j)

/-- One scanning pass of `two_opt`: fold over all scanned pairs keeping
`(best_delta, best_swap)`, starting from `(0, None)` and replacing the
pair whenever a strictly smaller delta is found. -/
def bestSwap (route : List ℕ) (d : ℕ → ℕ → ℕ) (n : ℕ) : ℤ × Option (ℕ × ℕ) :=
  (scanPairs n).foldl
    (fun best p =>
      if deltaAt route d n p.1 p.2 < best.1 then (deltaAt route d n p.1 p.2, some p) else best)
    (0, none)

/-- Embedding of the slice assignment reversing `best_route[i:j]`: reverse the
half-open segment `[i, j)` in place. -/
def reverseSegment (route : List ℕ) (i j : ℕ) : List ℕ :=
  route.take i ++ ((route.drop i).take (j - i)).reverse ++ route.drop j

/-- The `while improved and iteration < max_iterations` loop of
`two_opt`, with the remaining iteration budget as fuel.  Each round runs
one pass; if the pass found a strictly improving swap it is applied and
its delta accumulated into the running cost, otherwise the loop stops. -/
def twoOptLoop (d : ℕ → ℕ → ℕ) (n : ℕ) : ℕ → List ℕ × ℤ → List ℕ × ℤ
  | 0, st => st
  | fuel + 1, st =>
    match bestSwap st.1 d n with
    | (delta, some (i, j)) => twoOptLoop d n fuel (reverseSegment st.1 i j, st.2 + delta)
    | (_, none) => st

/-- Embedding of `two_opt(route, dist_matrix, max_iterations)`: start from the input
route and its recomputed cost, then iterate best-improvement passes. -/
def two_opt (route : List ℕ) (d : ℕ → ℕ → ℕ) (max_iterations : ℕ) : List ℕ × ℤ :=
  twoOptLoop d route.length max_iterations (route, (compute_route_cost route d : ℤ))

/-- Embedding of `run_trial` as found under `src/` (no ILS): generate the resonator
route, record its cost, refine with `two_opt`, and return the 2-tuple
`(initial_cost, improved_cost)`. -/
def run_trial (cosF : ℚ → ℚ) (piQ : ℚ) (coords : List (ℤ × ℤ)) (d : ℕ → ℕ → ℕ)
    (N : ℕ) (amplitude shiftv : ℚ) (two_opt_iterations : ℕ) : ℕ × ℤ :=
  let n := coords.length
  let route := generate_resonator_route cosF piQ n N amplitude shiftv
  let initial_cost := compute_route_cost route d
  let res := two_opt route d two_opt_iterations
  (initial_cost, res.2)

/-- One row of the sweep output (fixed-shape record of the dictionary
built by `grid_search`).  Timer readings are modelled in integer ticks. -/
structure SweepRecord where
  N : ℕ
  amplitude : ℚ
  shiftv : ℚ
  seed : ℕ
  initial_cost : ℕ
  final_cost : ℤ
  time_seconds : ℤ
deriving DecidableEq

/-- The nested iteration order of `grid_search`: N outermost, then
amplitude, then shift, then seed. -/
def sweepCombos (N_values : List ℕ) (amplitude_values shift_values : List ℚ)
    (seeds : ℕ) : List (ℕ × ℚ × ℚ × ℕ) :=
  N_values.flatMap fun N =>
    amplitude_values.flatMap fun A =>
      shift_values.flatMap fun s =>
        (List.range seeds).map fun seed => (N, A, s, seed)

/-- Embedding of `grid_search`: build the distance matrix once, then run one trial
per `(N, amplitude, shift, seed)` combination in nested order.  The
`random.seed(seed)` call of the source re-seeds a generator that
`run_trial` never consumes, so it has no observable effect here.  The
`time.perf_counter()` readings surrounding each trial are modelled by
the oracle `clock`: trial number `t` reads `clock (2*t)` before and
`clock (2*t+1)` after, and records their difference. -/
def grid_search (cosF : ℚ → ℚ) (piQ : ℚ) (coords : List (ℤ × ℤ))
    (N_values : List ℕ) (amplitude_values shift_values : List ℚ)
    (seeds two_opt_iterations : ℕ) (clock : ℕ → ℤ) : List SweepRecord :=
  let d := dOf (compute_distance_matrix coords)
  (sweepCombos N_values amplitude_values shift_values seeds).mapIdx fun t combo =>
    let res := run_trial cosF piQ coords d combo.1 combo.2.1 combo.2.2.1 two_opt_iterations
    { N := combo.1
      amplitude := combo.2.1
      shiftv := combo.2.2.1
      seed := combo.2.2.2
      initial_cost := res.1
      final_cost := res.2
      time_seconds := clock (2 * t + 1) - clock (2 * t) }

/-- Projection of a `SweepRecord` onto every field except the elapsed
time. -/
def dropTime (r : SweepRecord) : ℕ × ℚ × ℚ × ℕ × ℕ × ℤ :=
  (r.N, r.amplitude, r.shiftv, r.seed, r.initial_cost, r.final_cost)

/-- The half-open slice `route[a:b]`. -/
def segmentSlice (route : List ℕ) (a b : ℕ) : List ℕ := (route.drop a).take (b - a)

/-- Modelled from the spec: the double-bridge Perturbator (§4.4) is part
of the ILS-enabled module variant that is not under `src/`.  Four cut
positions are sampled independently in `[0, n)` (here: four draws taken
mod `n`), sorted to `p1 ≤ p2 ≤ p3 ≤ p4`, and the route is reassembled as
`[0,p1) + [p3,p4) + [p2,p3) + [p1,p2) + [p4,n)`. -/
def double_bridge (route : List ℕ) (d1 d2 d3 d4 : ℕ) : List ℕ :=
  let n := route.length
  let cuts := [d1 % n, d2 % n, d3 % n, d4 % n].mergeSort fun a b => decide (a ≤ b)
  let p1 := cuts.getD 0 0
  let p2 := cuts.getD 1 0
  let p3 := cuts.getD 2 0
  let p4 := cuts.getD 3 0
  segmentSlice route 0 p1 ++ segmentSlice route p3 p4 ++ segmentSlice route p2 p3 ++
    segmentSlice route p1 p2 ++ segmentSlice route p4 n

/-- Modelled from the spec: the `IteratedLocalSearchController` /
ILS-enabled `run_trial` (§4.5) is part of the module variant that is not
under `src/` (the `src/` `run_trial` returns a 2-tuple and does no ILS;
`backend/app.py` is its caller).  Construction: harmonic route, its cost
recorded as `initialCost`, refined by `two_opt`.  Then `ils_iterations`
rounds of: double-bridge perturbation of the current best (consuming
four draws from `rng`), `two_opt` refinement, and elitist acceptance
(replace only on strictly lower cost).  Returns the 3-tuple
`(initialCost, finalCost, finalRoute)`. -/
def run_trial_ils (cosF : ℚ → ℚ) (piQ : ℚ) (coords : List (ℤ × ℤ)) (d : ℕ → ℕ → ℕ)
    (N : ℕ) (amplitude shiftv : ℚ) (two_opt_iterations ils_iterations : ℕ)
    (rng : ℕ → ℕ) : ℕ × ℤ × List ℕ :=
  let n := coords.length
  let route := generate_resonator_route cosF piQ n N amplitude shiftv
  let initial_cost := compute_route_cost route d
  let st0 := two_opt route d two_opt_iterations
  let final :=
    (List.range ils_iterations).foldl
      (fun st t =>
        let cand := double_bridge st.1 (rng (4 * t)) (rng (4 * t + 1)) (rng (4 * t + 2))
          (rng (4 * t + 3))
        let res := two_opt cand d two_opt_iterations
        if res.2 < st.2 then res else st)
      st0
  (initial_cost, final.2, final.1)

/-- The parameter names of `run_trial` as defined under `src/`. -/
def run_trial_param_names : List String :=
  ["coords", "dist_matrix", "N", "amplitude", "shift", "two_opt_iterations"]

/-- The keyword-argument names used by the `rt.run_trial(...)` call in
`solve_tsp` (`backend/app.py`). -/
def solve_keyword_names : List String :=
  ["coords", "dist_matrix", "N", "amplitude", "shift", "ils_iterations"]

/-- Python keyword binding: a call with keyword arguments succeeds only
if every keyword names a parameter of the callee; otherwise a
`TypeError` is raised before the function body runs. -/
def keywordsAccepted (param_names kw_names : List String) : Bool :=
  kw_names.all fun k => param_names.contains k

/-- Embedding of `solve_tsp` (`backend/app.py`), modelled at the level the claim
needs: invalid/empty `coords` return status 400; otherwise the body
calls `rt.run_trial` with the keyword set `solve_keyword_names`.  If the
binding fails the raised `TypeError` is caught by the `except` clause,
producing the error response with status 500; only a successful binding
could reach the 200 success response.  The result is
`(HTTP status, error flag)`. -/
def solve_tsp (coords : List (ℤ × ℤ)) : ℕ × Bool :=
  if coords.isEmpty then (400, true)
  else if keywordsAccepted run_trial_param_names solve_keyword_names then (200, false)
  else (500, true)

/-- The set of scanned pairs asserted by the claim (with upper bound
`j ≤ n`, written exactly as the claim states it). -/
def claimedPairPred (n : ℕ) (p : ℕ × ℕ) : Prop :=
  1 ≤ p.1 ∧ p.1 < n - 1 ∧ p.1 + 1 < p.2 ∧ p.2 ≤ n

instance (n : ℕ) (p : ℕ × ℕ) : Decidable (claimedPairPred n p) := by
  unfold claimedPairPred; infer_instance

/-- The corrected set of scanned pairs (upper bound `j ≤ n - 1`). -/
def amendedPairPred (n : ℕ) (p : ℕ × ℕ) : Prop :=
  1 ≤ p.1 ∧ p.1 < n - 1 ∧ p.1 + 1 < p.2 ∧ p.2 ≤ n - 1

instance (n : ℕ) (p : ℕ × ℕ) : Decidable (amendedPairPred n p) := by
  unfold amendedPairPred; infer_instance

/-- The four unit-square corners of the concrete scenario. -/
def unitSquare : List (ℤ × ℤ) := [(0, 0), (0, 1), (1, 1), (1, 0)]

end Resonator

namespace Resonator

/-! ### Helper lemmas about the best-improvement scanning pass -/

lemma foldMin_spec (g : ℕ × ℕ → ℤ) (L : List (ℕ × ℕ)) :
    ∀ a : ℤ × Option (ℕ × ℕ),
      ((L.foldl (fun best p => if g p < best.1 then (g p, some p) else best) a).1 ≤ a.1 ∧
        ∀ p ∈ L,
          (L.foldl (fun best p => if g p < best.1 then (g p, some p) else best) a).1 ≤ g p) ∧
      ((L.foldl (fun best p => if g p < best.1 then (g p, some p) else best) a) = a ∨
        ∃ p ∈ L,
          (L.foldl (fun best p => if g p < best.1 then (g p, some p) else best) a).2 = some p ∧
          (L.foldl (fun best p => if g p < best.1 then (g p, some p) else best) a).1 = g p ∧
          (L.foldl (fun best p => if g p < best.1 then (g p, some p) else best) a).1 < a.1) := by
  induction L with
  | nil => intro a; simp
  | cons q T ih =>
    intro a
    simp only [List.foldl_cons]
    by_cases hq : g q < a.1
    · rw [if_pos hq]
      rcases ih (g q, some q) with ⟨⟨hle, hall⟩, hcase⟩
      refine ⟨⟨le_trans hle (le_of_lt hq), ?_⟩, ?_⟩
      · intro p hp
        rcases List.mem_cons.mp hp with rfl | hp
        · exact hle
        · exact hall p hp
      · rcases hcase with heq | ⟨p, hp, h2, h1, hlt⟩
        · exact Or.inr ⟨q, List.mem_cons_self q T, by rw [heq], by rw [heq], by rw [heq]; exact hq⟩
        · exact Or.inr ⟨p, List.mem_cons_of_mem q hp, h2, h1, lt_trans hlt hq⟩
    · rw [if_neg hq]
      rcases ih a with ⟨⟨hle, hall⟩, hcase⟩
      refine ⟨⟨hle, ?_⟩, ?_⟩
      · intro p hp
        rcases List.mem_cons.mp hp with rfl | hp
        · exact le_trans hle (le_of_not_lt hq)
        · exact hall p hp
      · rcases hcase with heq | ⟨p, hp, h2, h1, hlt⟩
        · exact Or.inl heq
        · exact Or.inr ⟨p, List.mem_cons_of_mem q hp, h2, h1, hlt⟩

lemma bestSwap_eq_foldMin (route : List ℕ) (d : ℕ → ℕ → ℕ) (n : ℕ) :
    bestSwap route d n =
      (scanPairs n).foldl
        (fun best p =>
          if (fun p : ℕ × ℕ => deltaAt route d n p.1 p.2) p < best.1 then
            ((fun p : ℕ × ℕ => deltaAt route d n p.1 p.2) p, some p)
          else best)
        (0, none) := rfl

lemma bestSwap_none_spec (route : List ℕ) (d : ℕ → ℕ → ℕ) (n : ℕ) (δ : ℤ)
    (h : bestSwap route d n = (δ, none)) :
    ∀ p ∈ scanPairs n, 0 ≤ deltaAt route d n p.1 p.2 := by
  have hspec := foldMin_spec (fun p : ℕ × ℕ => deltaAt route d n p.1 p.2) (scanPairs n) (0, none)
  rw [← bestSwap_eq_foldMin] at hspec
  rcases hspec with ⟨⟨_, hall⟩, hcase⟩
  rcases hcase with heq | ⟨p, _, h2, _, _⟩
  · intro p hp
    have := hall p hp
    rw [heq] at this
    exact this
  · rw [h] at h2
    simp at h2

lemma bestSwap_some_spec (route : List ℕ) (d : ℕ → ℕ → ℕ) (n : ℕ) (δ : ℤ) (i j : ℕ)
    (h : bestSwap route d n = (δ, some (i, j))) :
    (i, j) ∈ scanPairs n ∧ δ = deltaAt route d n i j ∧ δ < 0 ∧
      ∀ p ∈ scanPairs n, δ ≤ deltaAt route d n p.1 p.2 := by
  have hspec := foldMin_spec (fun p : ℕ × ℕ => deltaAt route d n p.1 p.2) (scanPairs n) (0, none)
  rw [← bestSwap_eq_foldMin] at hspec
  rcases hspec with ⟨⟨_, hall⟩, hcase⟩
  rcases hcase with heq | ⟨p, hp, h2, h1, hlt⟩
  · rw [heq] at h
    simp at h
  · rw [h] at h2 h1 hlt
    simp only [Option.some.injEq] at h2
    subst h2
    exact ⟨hp, h1, hlt, fun p hp => by have := hall p hp; rw [h] at this; exact this⟩

lemma mem_scanPairs (n : ℕ) (p : ℕ × ℕ) : p ∈ scanPairs n ↔ amendedPairPred n p := by
  unfold scanPairs amendedPairPred
  constructor
  · intro h
    simp only [List.mem_flatMap, List.mem_map, List.mem_filter, List.mem_range'_1,
      decide_eq_true_eq] at h
    obtain ⟨i, hi, j, ⟨⟨hj1, hj2⟩, hj3⟩, rfl⟩ := h
    dsimp only
    omega
  · intro h
    simp only [List.mem_flatMap, List.mem_map, List.mem_filter, List.mem_range'_1,
      decide_eq_true_eq]
    obtain ⟨h1, h2, h3, h4⟩ := h
    exact ⟨p.1, ⟨h1, by omega⟩, p.2, ⟨⟨by omega, by omega⟩, by omega⟩, rfl⟩

lemma twoOptLoop_succ_some (d : ℕ → ℕ → ℕ) (n fuel : ℕ) (st : List ℕ × ℤ) (δ : ℤ) (i j : ℕ)
    (h : bestSwap st.1 d n = (δ, some (i, j))) :
    twoOptLoop d n (fuel + 1) st = twoOptLoop d n fuel (reverseSegment st.1 i j, st.2 + δ) := by
  rw [twoOptLoop, h]

lemma twoOptLoop_succ_none (d : ℕ → ℕ → ℕ) (n fuel : ℕ) (st : List ℕ × ℤ) (δ : ℤ)
    (h : bestSwap st.1 d n = (δ, none)) :
    twoOptLoop d n (fuel + 1) st = st := by
  rw [twoOptLoop, h]

end Resonator

namespace Resonator

lemma twoOptLoop_cost_le (d : ℕ → ℕ → ℕ) (n : ℕ) :
    ∀ (fuel : ℕ) (st : List ℕ × ℤ), (twoOptLoop d n fuel st).2 ≤ st.2 := by
  intro fuel
  induction fuel with
  | zero => intro st; exact le_refl _
  | succ k ih =>
    intro st
    rcases h : bestSwap st.1 d n with ⟨δ, o⟩
    cases o with
    | none => rw [twoOptLoop_succ_none d n k st δ h]
    | some p =>
      rcases p with ⟨i, j⟩
      rw [twoOptLoop_succ_some d n k st δ i j h]
      have hneg : δ < 0 := (bestSwap_some_spec st.1 d n δ i j h).2.2.1
      calc (twoOptLoop d n k (reverseSegment st.1 i j, st.2 + δ)).2
          ≤ st.2 + δ := ih (reverseSegment st.1 i j, st.2 + δ)
        _ ≤ st.2 := by omega

/-- C4: for every input route and every distance table, the cost
returned by `two_opt` is at most the tour cost of the input route (each
applied pass adds a strictly negative delta to the running cost). -/
theorem C4_two_opt_never_increases_cost (route : List ℕ) (d : ℕ → ℕ → ℕ)
    (max_iterations : ℕ) :
    (two_opt route d max_iterations).2 ≤ (compute_route_cost route d : ℤ) := by
  unfold two_opt
  exact twoOptLoop_cost_le d route.length max_iterations (route, (compute_route_cost route d : ℤ))

/-- C2 counterexample: for `n = 4` the claim's scan set contains the
pair `(1, 4)` (`1 ≤ 1 < 3`, `2 < 4 ≤ 4`), but the pass of `two_opt`
never scans it: the inner loop `for j in range(i+1, n)` stops at
`j = n - 1`, so the pair bound `j ≤ n` is wrong. -/
theorem C2_counterexample :
    ¬ (((1, 4) ∈ scanPairs 4) ↔ claimedPairPred 4 (1, 4)) := by
  decide

/-- C2 (amended): each pass of `two_opt` scans exactly the pairs
`1 ≤ i < n-1`, `i+1 < j ≤ n-1`; for each it computes the delta of
replacing edges `(route[i-1],route[i])`, `(route[j-1],route[j % n])`
with `(route[i-1],route[j-1])`, `(route[i],route[j % n])`; a pass
applies exactly the single move with the most negative delta, reversing
`route[i..j)`, and applies nothing when no delta is negative. -/
theorem C2_two_opt_pass_best_improvement (n : ℕ) (route : List ℕ) (d : ℕ → ℕ → ℕ) :
    (∀ p : ℕ × ℕ, p ∈ scanPairs n ↔ amendedPairPred n p) ∧
    (∀ i j : ℕ, deltaAt route d n i j =
      ((d (route.getD (i - 1) 0) (route.getD (j - 1) 0) : ℤ) +
        (d (route.getD i 0) (route.getD (j % n) 0) : ℤ)) -
      ((d (route.getD (i - 1) 0) (route.getD i 0) : ℤ) +
        (d (route.getD (j - 1) 0) (route.getD (j % n) 0) : ℤ))) ∧
    (∀ (δ : ℤ) (i j : ℕ), bestSwap route d n = (δ, some (i, j)) →
      amendedPairPred n (i, j) ∧ δ = deltaAt route d n i j ∧ δ < 0 ∧
        ∀ p ∈ scanPairs n, δ ≤ deltaAt route d n p.1 p.2) ∧
    (∀ δ : ℤ, bestSwap route d n = (δ, none) →
      ∀ p ∈ scanPairs n, 0 ≤ deltaAt route d n p.1 p.2) ∧
    (∀ (fuel : ℕ) (st : List ℕ × ℤ) (δ : ℤ) (i j : ℕ),
      bestSwap st.1 d n = (δ, some (i, j)) →
      twoOptLoop d n (fuel + 1) st = twoOptLoop d n fuel (reverseSegment st.1 i j, st.2 + δ)) ∧
    (∀ (fuel : ℕ) (st : List ℕ × ℤ) (δ : ℤ),
      bestSwap st.1 d n = (δ, none) → twoOptLoop d n (fuel + 1) st = st) := by
  refine ⟨mem_scanPairs n, fun i j => rfl, ?_, ?_, ?_, ?_⟩
  · intro δ i j h
    have hs := bestSwap_some_spec route d n δ i j h
    exact ⟨(mem_scanPairs n (i, j)).mp hs.1, hs.2.1, hs.2.2.1, hs.2.2.2⟩
  · intro δ h
    exact bestSwap_none_spec route d n δ h
  · intro fuel st δ i j h
    exact twoOptLoop_succ_some d n fuel st δ i j h
  · intro fuel st δ h
    exact twoOptLoop_succ_none d n fuel st δ h

/-- C2 witness: the amended scan-set characterization evaluated at
`n = 4`: the pair `(1, 3)` is scanned, and it satisfies the corrected
bounds. -/
theorem C2_two_opt_pass_best_improvement_witness :
    ((1, 3) ∈ scanPairs 4) ↔ amendedPairPred 4 (1, 3) :=
  (C2_two_opt_pass_best_improvement 4 [] (fun _ _ => 0)).1 (1, 3)

/-- C3 counterexample: on the unit square `(0,0), (0,1), (1,1), (1,0)`
the distance-table entry between the diagonal corners 0 and 2 is
`round(√2) = 1`, not 2 as the claim states. -/
theorem C3_counterexample :
    ¬ (dOf (compute_distance_matrix unitSquare) 0 2 = 2) := by
  decide

/-- C3 (amended): on the unit square the table entry between adjacent
corners is 1 and between diagonal corners is `round(√2) = 1`, and
`two_opt` applied to the crossed ordering `[0,2,1,3]` returns a route of
cost 4. -/
theorem C3_unit_square_scenario :
    compute_distance_matrix unitSquare =
      [[0, 1, 1, 1], [1, 0, 1, 1], [1, 1, 0, 1], [1, 1, 1, 0]] ∧
    dOf (compute_distance_matrix unitSquare) 0 1 = 1 ∧
    dOf (compute_distance_matrix unitSquare) 0 2 = 1 ∧
    dOf (compute_distance_matrix unitSquare) 1 3 = 1 ∧
    (two_opt [0, 2, 1, 3] (dOf (compute_distance_matrix unitSquare)) 5000).2 = 4 ∧
    compute_route_cost
      (two_opt [0, 2, 1, 3] (dOf (compute_distance_matrix unitSquare)) 5000).1
      (dOf (compute_distance_matrix unitSquare)) = 4 := by
  refine ⟨by decide, by decide, by decide, by decide, by decide, by decide⟩

end Resonator

namespace Resonator

/-! ### Indexing facts about segment reversal -/

lemma reverseSegment_length (r : List ℕ) (i j : ℕ) (hij : i ≤ j) (hj : j ≤ r.length) :
    (reverseSegment r i j).length = r.length := by
  unfold reverseSegment
  simp only [List.length_append, List.length_reverse, List.length_take, List.length_drop]
  omega

lemma reverseSegment_getD_left (r : List ℕ) (i j p : ℕ) (hp : p < i) (hi : i ≤ r.length) :
    (reverseSegment r i j).getD p 0 = r.getD p 0 := by
  unfold reverseSegment
  rw [List.getD_eq_getElem?_getD, List.getD_eq_getElem?_getD]
  have ht : (r.take i).length = i := by rw [List.length_take]; omega
  rw [List.append_assoc]
  rw [List.getElem?_append_left (show p < (r.take i).length by rw [ht]; omega)]
  rw [List.getElem?_take, if_pos hp]

lemma reverseSegment_getD_mid (r : List ℕ) (i j p : ℕ) (hip : i ≤ p) (hpj : p < j)
    (hj : j ≤ r.length) :
    (reverseSegment r i j).getD p 0 = r.getD (i + j - 1 - p) 0 := by
  unfold reverseSegment
  rw [List.getD_eq_getElem?_getD, List.getD_eq_getElem?_getD]
  have ht : (r.take i).length = i := by rw [List.length_take]; omega
  have hms : ((r.drop i).take (j - i)).length = j - i := by
    rw [List.length_take, List.length_drop]; omega
  have hmr : (((r.drop i).take (j - i)).reverse).length = j - i := by
    rw [List.length_reverse]; exact hms
  rw [List.append_assoc]
  rw [List.getElem?_append_right (show (r.take i).length ≤ p by rw [ht]; omega)]
  rw [ht]
  rw [List.getElem?_append_left
    (show p - i < (((r.drop i).take (j - i)).reverse).length by rw [hmr]; omega)]
  rw [List.getElem?_reverse (show p - i < ((r.drop i).take (j - i)).length by rw [hms]; omega)]
  rw [hms]
  rw [List.getElem?_take, if_pos (show j - i - 1 - (p - i) < j - i by omega)]
  rw [List.getElem?_drop]
  have hidx : i + (j - i - 1 - (p - i)) = i + j - 1 - p := by omega
  rw [hidx]

lemma reverseSegment_getD_right (r : List ℕ) (i j p : ℕ) (hjp : j ≤ p) (hij : i ≤ j)
    (hj : j ≤ r.length) :
    (reverseSegment r i j).getD p 0 = r.getD p 0 := by
  unfold reverseSegment
  rw [List.getD_eq_getElem?_getD, List.getD_eq_getElem?_getD]
  have ht : (r.take i).length = i := by rw [List.length_take]; omega
  have hmr : (((r.drop i).take (j - i)).reverse).length = j - i := by
    rw [List.length_reverse, List.length_take, List.length_drop]; omega
  rw [List.append_assoc]
  rw [List.getElem?_append_right (show (r.take i).length ≤ p by rw [ht]; omega)]
  rw [ht]
  rw [List.getElem?_append_right
    (show (((r.drop i).take (j - i)).reverse).length ≤ p - i by rw [hmr]; omega)]
  rw [hmr]
  rw [List.getElem?_drop]
  have hidx : j + (p - i - (j - i)) = p := by omega
  rw [hidx]

lemma reverseSegment_perm (r : List ℕ) (i j : ℕ) (hij : i ≤ j) :
    (reverseSegment r i j).Perm r := by
  unfold reverseSegment
  have h2 : (r.drop i).drop (j - i) = r.drop j := by
    rw [List.drop_drop]
    congr 1
    omega
  have hdecomp : r.take i ++ ((r.drop i).take (j - i) ++ r.drop j) = r := by
    rw [← h2, List.take_append_drop, List.take_append_drop]
  conv_rhs => rw [← hdecomp]
  rw [List.append_assoc]
  exact List.Perm.append_left _
    (List.Perm.append ((r.drop i).take (j - i)).reverse_perm (List.Perm.refl _))

end Resonator

namespace Resonator

lemma foldl_range_add (n : ℕ) (f : ℕ → ℕ) :
    (List.range n).foldl (fun total idx => total + f idx) 0 = ∑ idx ∈ Finset.range n, f idx := by
  induction n with
  | zero => simp
  | succ k ih => rw [List.range_succ, List.foldl_append, Finset.sum_range_succ, ih]; simp

lemma compute_route_cost_eq_sum (route : List ℕ) (d : ℕ → ℕ → ℕ) :
    compute_route_cost route d =
      ∑ idx ∈ Finset.range route.length,
        d (route.getD idx 0) (route.getD ((idx + 1) % route.length) 0) := by
  unfold compute_route_cost
  exact foldl_range_add route.length
    (fun idx => d (route.getD idx 0) (route.getD ((idx + 1) % route.length) 0))

lemma sum_range_split (n a b : ℕ) (hab : a + 1 ≤ b) (hbc : b + 1 ≤ n) (g : ℕ → ℕ) :
    ∑ idx ∈ Finset.range n, g idx =
      (∑ idx ∈ Finset.Ico 0 a, g idx) + g a + (∑ idx ∈ Finset.Ico (a + 1) b, g idx) + g b +
        (∑ idx ∈ Finset.Ico (b + 1) n, g idx) := by
  rw [Finset.range_eq_Ico]
  rw [← Finset.sum_Ico_consecutive g (by omega : (0 : ℕ) ≤ a) (by omega : a ≤ n)]
  rw [← Finset.sum_Ico_consecutive g (by omega : a ≤ a + 1) (by omega : a + 1 ≤ n)]
  rw [← Finset.sum_Ico_consecutive g (by omega : a + 1 ≤ b) (by omega : b ≤ n)]
  rw [← Finset.sum_Ico_consecutive g (by omega : b ≤ b + 1) (by omega : b + 1 ≤ n)]
  rw [Nat.Ico_succ_singleton, Finset.sum_singleton]
  rw [Nat.Ico_succ_singleton, Finset.sum_singleton]
  omega

lemma cost_reverseSegment (r : List ℕ) (d : ℕ → ℕ → ℕ) (hsym : ∀ x y, d x y = d y x)
    (i j : ℕ) (h1 : 1 ≤ i) (hij : i + 1 < j) (hj : j + 1 ≤ r.length) :
    compute_route_cost (reverseSegment r i j) d
        + (d (r.getD (i - 1) 0) (r.getD i 0) + d (r.getD (j - 1) 0) (r.getD j 0)) =
      compute_route_cost r d
        + (d (r.getD (i - 1) 0) (r.getD (j - 1) 0) + d (r.getD i 0) (r.getD j 0)) := by
  obtain ⟨a, rfl⟩ : ∃ a, i = a + 1 := ⟨i - 1, by omega⟩
  obtain ⟨b, rfl⟩ : ∃ b, j = b + 1 := ⟨j - 1, by omega⟩
  simp only [Nat.add_sub_cancel]
  have hlen : (reverseSegment r (a + 1) (b + 1)).length = r.length :=
    reverseSegment_length r _ _ (by omega) (by omega)
  rw [compute_route_cost_eq_sum, compute_route_cost_eq_sum, hlen]
  rw [sum_range_split r.length a b (by omega) (by omega)]
  rw [sum_range_split r.length a b (by omega) (by omega)]
  have hA : ∀ idx ∈ Finset.Ico 0 a,
      d ((reverseSegment r (a + 1) (b + 1)).getD idx 0)
        ((reverseSegment r (a + 1) (b + 1)).getD ((idx + 1) % r.length) 0) =
      d (r.getD idx 0) (r.getD ((idx + 1) % r.length) 0) := by
    intro idx hidx
    rw [Finset.mem_Ico] at hidx
    rw [Nat.mod_eq_of_lt (by omega)]
    rw [reverseSegment_getD_left r (a + 1) (b + 1) idx (by omega) (by omega)]
    rw [reverseSegment_getD_left r (a + 1) (b + 1) (idx + 1) (by omega) (by omega)]
  have hFa : d ((reverseSegment r (a + 1) (b + 1)).getD a 0)
      ((reverseSegment r (a + 1) (b + 1)).getD ((a + 1) % r.length) 0) =
      d (r.getD a 0) (r.getD b 0) := by
    rw [Nat.mod_eq_of_lt (by omega)]
    rw [reverseSegment_getD_left r (a + 1) (b + 1) a (by omega) (by omega)]
    rw [reverseSegment_getD_mid r (a + 1) (b + 1) (a + 1) (by omega) (by omega) (by omega)]
    have hix : a + 1 + (b + 1) - 1 - (a + 1) = b := by omega
    rw [hix]
  have hM : ∑ idx ∈ Finset.Ico (a + 1) b,
      d ((reverseSegment r (a + 1) (b + 1)).getD idx 0)
        ((reverseSegment r (a + 1) (b + 1)).getD ((idx + 1) % r.length) 0) =
      ∑ idx ∈ Finset.Ico (a + 1) b, d (r.getD idx 0) (r.getD ((idx + 1) % r.length) 0) := by
    refine Finset.sum_nbij' (fun idx => a + b - idx) (fun idx => a + b - idx) ?_ ?_ ?_ ?_ ?_
    · intro x hx
      dsimp only
      simp only [Finset.mem_Ico] at hx ⊢
      omega
    · intro x hx
      dsimp only
      simp only [Finset.mem_Ico] at hx ⊢
      omega
    · intro x hx
      dsimp only
      simp only [Finset.mem_Ico] at hx
      omega
    · intro x hx
      dsimp only
      simp only [Finset.mem_Ico] at hx
      omega
    · intro idx hidx
      dsimp only
      simp only [Finset.mem_Ico] at hidx
      rw [Nat.mod_eq_of_lt (by omega), Nat.mod_eq_of_lt (by omega)]
      rw [reverseSegment_getD_mid r (a + 1) (b + 1) idx (by omega) (by omega) (by omega)]
      rw [reverseSegment_getD_mid r (a + 1) (b + 1) (idx + 1) (by omega) (by omega) (by omega)]
      have hx1 : a + 1 + (b + 1) - 1 - idx = a + b - idx + 1 := by omega
      have hx2 : a + 1 + (b + 1) - 1 - (idx + 1) = a + b - idx := by omega
      rw [hx1, hx2]
      exact hsym (r.getD (a + b - idx + 1) 0) (r.getD (a + b - idx) 0)
  have hFb : d ((reverseSegment r (a + 1) (b + 1)).getD b 0)
      ((reverseSegment r (a + 1) (b + 1)).getD ((b + 1) % r.length) 0) =
      d (r.getD (a + 1) 0) (r.getD (b + 1) 0) := by
    rw [Nat.mod_eq_of_lt (by omega)]
    rw [reverseSegment_getD_mid r (a + 1) (b + 1) b (by omega) (by omega) (by omega)]
    rw [reverseSegment_getD_right r (a + 1) (b + 1) (b + 1) (by omega) (by omega) (by omega)]
    have hix : a + 1 + (b + 1) - 1 - b = a + 1 := by omega
    rw [hix]
  have hE : ∀ idx ∈ Finset.Ico (b + 1) r.length,
      d ((reverseSegment r (a + 1) (b + 1)).getD idx 0)
        ((reverseSegment r (a + 1) (b + 1)).getD ((idx + 1) % r.length) 0) =
      d (r.getD idx 0) (r.getD ((idx + 1) % r.length) 0) := by
    intro idx hidx
    rw [Finset.mem_Ico] at hidx
    rw [reverseSegment_getD_right r (a + 1) (b + 1) idx (by omega) (by omega) (by omega)]
    by_cases hlast : idx + 1 = r.length
    · rw [hlast, Nat.mod_self]
      rw [reverseSegment_getD_left r (a + 1) (b + 1) 0 (by omega) (by omega)]
    · rw [Nat.mod_eq_of_lt (by omega)]
      rw [reverseSegment_getD_right r (a + 1) (b + 1) (idx + 1) (by omega) (by omega) (by omega)]
  rw [Finset.sum_congr rfl hA, hFa, hM, hFb, Finset.sum_congr rfl hE]
  rw [Nat.mod_eq_of_lt (show a + 1 < r.length by omega)]
  rw [Nat.mod_eq_of_lt (show b + 1 < r.length by omega)]
  omega

end Resonator

namespace Resonator

lemma twoOptLoop_cost_invariant (d : ℕ → ℕ → ℕ) (hsym : ∀ x y, d x y = d y x) (n : ℕ) :
    ∀ (fuel : ℕ) (st : List ℕ × ℤ), st.1.length = n →
      st.2 = (compute_route_cost st.1 d : ℤ) →
      ((twoOptLoop d n fuel st).1.length = n ∧
        (twoOptLoop d n fuel st).2 = (compute_route_cost (twoOptLoop d n fuel st).1 d : ℤ)) := by
  intro fuel
  induction fuel with
  | zero => intro st h1 h2; exact ⟨h1, h2⟩
  | succ k ih =>
    intro st hlen hcost
    rcases h : bestSwap st.1 d n with ⟨δ, o⟩
    cases o with
    | none =>
      rw [twoOptLoop_succ_none d n k st δ h]
      exact ⟨hlen, hcost⟩
    | some p =>
      rcases p with ⟨i, j⟩
      rw [twoOptLoop_succ_some d n k st δ i j h]
      have hs := bestSwap_some_spec st.1 d n δ i j h
      obtain ⟨hi1, hi2, hij, hjn⟩ := (mem_scanPairs n (i, j)).mp hs.1
      dsimp only at hi1 hi2 hij hjn
      have hn4 : 4 ≤ n := by omega
      have hjlen : j + 1 ≤ st.1.length := by omega
      have hlen' : (reverseSegment st.1 i j).length = n := by
        rw [reverseSegment_length st.1 i j (by omega) (by omega)]
        exact hlen
      have hceq := cost_reverseSegment st.1 d hsym i j hi1 hij hjlen
      have hjm : j % n = j := Nat.mod_eq_of_lt (by omega)
      have hnc : st.2 + δ = (compute_route_cost (reverseSegment st.1 i j) d : ℤ) := by
        rw [hcost, hs.2.1]
        simp only [deltaAt, hjm]
        have hz := congrArg (Nat.cast : ℕ → ℤ) hceq
        push_cast at hz
        omega
      exact ih (reverseSegment st.1 i j, st.2 + δ) hlen' hnc

/-- C5: for every input route and every symmetric distance table, the
cost that `two_opt` maintains by accumulating deltas and returns equals
the tour cost of the returned route recomputed by direct summation with
`compute_route_cost` (round-trip consistency of the incremental
updates).  Symmetry of the table holds for every `DistanceTable` of the
design (§3) and for everything `compute_distance_matrix` builds. -/
theorem C5_incremental_cost_round_trip (route : List ℕ) (d : ℕ → ℕ → ℕ) (m : ℕ)
    (hsym : ∀ x y, d x y = d y x) :
    (two_opt route d m).2 = (compute_route_cost (two_opt route d m).1 d : ℤ) := by
  unfold two_opt
  exact (twoOptLoop_cost_invariant d hsym route.length m
    (route, (compute_route_cost route d : ℤ)) rfl rfl).2

/-- C5 witness: the round-trip consistency instantiated on the concrete
symmetric table `d x y = x + y`, the route `[0, 2, 1, 3]` and cap 7. -/
theorem C5_incremental_cost_round_trip_witness :
    (∀ x y : ℕ, x + y = y + x) ∧
    (two_opt [0, 2, 1, 3] (fun u v => u + v) 7).2 =
      (compute_route_cost (two_opt [0, 2, 1, 3] (fun u v => u + v) 7).1
        (fun u v => u + v) : ℤ) :=
  ⟨fun x y => Nat.add_comm x y,
    C5_incremental_cost_round_trip [0, 2, 1, 3] (fun u v => u + v) 7
      (fun x y => Nat.add_comm x y)⟩

lemma twoOptLoop_route_perm (d : ℕ → ℕ → ℕ) (n : ℕ) :
    ∀ (fuel : ℕ) (st : List ℕ × ℤ), ((twoOptLoop d n fuel st).1).Perm st.1 := by
  intro fuel
  induction fuel with
  | zero => intro st; exact List.Perm.refl _
  | succ k ih =>
    intro st
    rcases h : bestSwap st.1 d n with ⟨δ, o⟩
    cases o with
    | none =>
      rw [twoOptLoop_succ_none d n k st δ h]
    | some p =>
      rcases p with ⟨i, j⟩
      rw [twoOptLoop_succ_some d n k st δ i j h]
      obtain ⟨hi1, hi2, hij, hjn⟩ := (mem_scanPairs n (i, j)).mp (bestSwap_some_spec st.1 d n δ i j h).1
      exact (ih _).trans (reverseSegment_perm st.1 i j (by omega))

/-- C8: every route produced by the core is a permutation of `0..n-1`:
`generate_resonator_route` returns a permutation of `List.range n`, and
whenever the input route is a permutation of `List.range n`, so is the
route returned by `two_opt`. -/
theorem C8_route_permutation_invariant (cosF : ℚ → ℚ) (piQ : ℚ) (n N : ℕ)
    (amplitude shiftv : ℚ) (route : List ℕ) (d : ℕ → ℕ → ℕ) (m : ℕ) :
    (generate_resonator_route cosF piQ n N amplitude shiftv).Perm (List.range n) ∧
    (route.Perm (List.range n) → ((two_opt route d m).1).Perm (List.range n)) := by
  constructor
  · simp only [generate_resonator_route]
    exact List.mergeSort_perm (List.range n) _
  · intro hroute
    unfold two_opt
    exact (twoOptLoop_route_perm d route.length m
      (route, (compute_route_cost route d : ℤ))).trans hroute

/-- C8 witness: `[0, 2, 1, 3]` is a permutation of `0..3`, and so is the
route `two_opt` returns from it. -/
theorem C8_route_permutation_invariant_witness :
    ([0, 2, 1, 3] : List ℕ).Perm (List.range 4) ∧
    ((two_opt [0, 2, 1, 3] (fun _ _ => 0) 5).1).Perm (List.range 4) :=
  ⟨by decide,
    (C8_route_permutation_invariant (fun x => x) 0 4 1 0 0 [0, 2, 1, 3]
      (fun _ _ => 0) 5).2 (by decide)⟩

end Resonator

namespace Resonator

/-! ### Permutation facts for the spec-modelled ILS controller -/

lemma two_opt_route_perm (route : List ℕ) (d : ℕ → ℕ → ℕ) (m : ℕ) :
    ((two_opt route d m).1).Perm route := by
  unfold two_opt
  exact twoOptLoop_route_perm d route.length m (route, (compute_route_cost route d : ℤ))

lemma segmentSlice_append_drop (r : List ℕ) (a b : ℕ) (hab : a ≤ b) :
    segmentSlice r a b ++ r.drop b = r.drop a := by
  unfold segmentSlice
  have hdb : r.drop b = (r.drop a).drop (b - a) := by
    rw [List.drop_drop]
    congr 1
    omega
  rw [hdb, List.take_append_drop]

lemma segmentSlice_to_length (r : List ℕ) (a : ℕ) :
    segmentSlice r a r.length = r.drop a := by
  unfold segmentSlice
  exact List.take_of_length_le (by rw [List.length_drop])

lemma perm_reassemble (A B C D E : List ℕ) :
    (A ++ D ++ C ++ B ++ E).Perm (A ++ B ++ C ++ D ++ E) := by
  rw [← Multiset.coe_eq_coe]
  simp only [← Multiset.coe_add]
  abel

lemma reassemble_perm (r : List ℕ) (p1 p2 p3 p4 : ℕ) (h12 : p1 ≤ p2) (h23 : p2 ≤ p3)
    (h34 : p3 ≤ p4) :
    (segmentSlice r 0 p1 ++ segmentSlice r p3 p4 ++ segmentSlice r p2 p3 ++
      segmentSlice r p1 p2 ++ segmentSlice r p4 r.length).Perm r := by
  have e4 : segmentSlice r p4 r.length = r.drop p4 := segmentSlice_to_length r p4
  have h4 : segmentSlice r p3 p4 ++ r.drop p4 = r.drop p3 := segmentSlice_append_drop r p3 p4 h34
  have h3 : segmentSlice r p2 p3 ++ r.drop p3 = r.drop p2 := segmentSlice_append_drop r p2 p3 h23
  have h2 : segmentSlice r p1 p2 ++ r.drop p2 = r.drop p1 := segmentSlice_append_drop r p1 p2 h12
  have h1 : segmentSlice r 0 p1 ++ r.drop p1 = r := by
    have := segmentSlice_append_drop r 0 p1 (Nat.zero_le p1)
    simpa using this
  have hr : segmentSlice r 0 p1 ++ segmentSlice r p1 p2 ++ segmentSlice r p2 p3 ++
      segmentSlice r p3 p4 ++ r.drop p4 = r := by
    calc segmentSlice r 0 p1 ++ segmentSlice r p1 p2 ++ segmentSlice r p2 p3 ++
        segmentSlice r p3 p4 ++ r.drop p4
        = segmentSlice r 0 p1 ++ (segmentSlice r p1 p2 ++ (segmentSlice r p2 p3 ++
            (segmentSlice r p3 p4 ++ r.drop p4))) := by simp [List.append_assoc]
      _ = segmentSlice r 0 p1 ++ (segmentSlice r p1 p2 ++ (segmentSlice r p2 p3 ++ r.drop p3)) := by
          rw [h4]
      _ = segmentSlice r 0 p1 ++ (segmentSlice r p1 p2 ++ r.drop p2) := by rw [h3]
      _ = segmentSlice r 0 p1 ++ r.drop p1 := by rw [h2]
      _ = r := h1
  rw [e4]
  conv_rhs => rw [← hr]
  exact perm_reassemble (segmentSlice r 0 p1) (segmentSlice r p1 p2) (segmentSlice r p2 p3)
    (segmentSlice r p3 p4) (r.drop p4)

lemma double_bridge_perm (r : List ℕ) (d1 d2 d3 d4 : ℕ) :
    (double_bridge r d1 d2 d3 d4).Perm r := by
  simp only [double_bridge]
  generalize hq : [d1 % r.length, d2 % r.length, d3 % r.length, d4 % r.length].mergeSort
    (fun a b => decide (a ≤ b)) = cuts
  have hsorted : cuts.Pairwise (fun a b => decide (a ≤ b) = true) := by
    rw [← hq]
    exact List.sorted_mergeSort
      (fun a b c hab hbc => by
        simp only [decide_eq_true_eq] at hab hbc ⊢
        omega)
      (fun a b => by
        rcases Nat.le_total a b with h | h
        · simp [h]
        · simp [h])
      [d1 % r.length, d2 % r.length, d3 % r.length, d4 % r.length]
  have hlen : cuts.length = 4 := by
    rw [← hq, List.length_mergeSort]
    rfl
  rcases cuts with _ | ⟨q1, _ | ⟨q2, _ | ⟨q3, _ | ⟨q4, _ | ⟨q5, t⟩⟩⟩⟩⟩
  · exact absurd hlen (by decide)
  · exact absurd hlen (by simp)
  · exact absurd hlen (by simp)
  · exact absurd hlen (by simp)
  · simp only [List.pairwise_cons, List.mem_cons, decide_eq_true_eq] at hsorted
    have h12 : q1 ≤ q2 := by
      have := hsorted.1 q2
      simp at this
      omega
    have h23 : q2 ≤ q3 := by
      have := hsorted.2.1 q3
      simp at this
      omega
    have h34 : q3 ≤ q4 := by
      have := hsorted.2.2.1 q4
      simp at this
      omega
    exact reassemble_perm r q1 q2 q3 q4 h12 h23 h34
  · rw [List.length_cons, List.length_cons, List.length_cons, List.length_cons,
      List.length_cons] at hlen
    omega

lemma foldl_route_perm_preserved {β : Type} (f : (List ℕ × ℤ) → β → (List ℕ × ℤ))
    (hf : ∀ st x, ((f st x).1).Perm st.1) (l : List β) :
    ∀ st : List ℕ × ℤ, ((l.foldl f st).1).Perm st.1 := by
  induction l with
  | nil => intro st; exact List.Perm.refl _
  | cons x xs ih =>
    intro st
    rw [List.foldl_cons]
    exact (ih (f st x)).trans (hf st x)

/-- C1 (modelled from the spec, see `run_trial_ils`): one full ILS trial
returns a 3-tuple `(initialCost, finalCost, finalRoute)` in which
`initialCost : ℕ` and `finalCost : ℤ` are integers and `finalRoute` is a
permutation of `0..n-1` given as an ordered sequence. -/
theorem C1_ils_trial_returns_triple (cosF : ℚ → ℚ) (piQ : ℚ) (coords : List (ℤ × ℤ))
    (d : ℕ → ℕ → ℕ) (N : ℕ) (amplitude shiftv : ℚ) (two_opt_iterations ils_iterations : ℕ)
    (rng : ℕ → ℕ) :
    ∃ (initialCost : ℕ) (finalCost : ℤ) (finalRoute : List ℕ),
      run_trial_ils cosF piQ coords d N amplitude shiftv two_opt_iterations ils_iterations rng =
        (initialCost, finalCost, finalRoute) ∧
      finalRoute.Perm (List.range coords.length) := by
  have hperm : ((run_trial_ils cosF piQ coords d N amplitude shiftv two_opt_iterations
      ils_iterations rng).2.2).Perm (List.range coords.length) := by
    simp only [run_trial_ils]
    have hstep : ∀ (st : List ℕ × ℤ) (t : ℕ),
        ((fun (st : List ℕ × ℤ) (t : ℕ) =>
          let cand := double_bridge st.1 (rng (4 * t)) (rng (4 * t + 1)) (rng (4 * t + 2))
            (rng (4 * t + 3))
          let res := two_opt cand d two_opt_iterations
          if res.2 < st.2 then res else st) st t).1.Perm st.1 := by
      intro st t
      dsimp only
      by_cases hc : (two_opt (double_bridge st.1 (rng (4 * t)) (rng (4 * t + 1))
          (rng (4 * t + 2)) (rng (4 * t + 3))) d two_opt_iterations).2 < st.2
      · rw [if_pos hc]
        exact (two_opt_route_perm _ d two_opt_iterations).trans
          (double_bridge_perm st.1 _ _ _ _)
      · rw [if_neg hc]
    refine (foldl_route_perm_preserved _ hstep (List.range ils_iterations) _).trans ?_
    exact (two_opt_route_perm _ d two_opt_iterations).trans
      (by
        simp only [generate_resonator_route]
        exact List.mergeSort_perm (List.range coords.length) _)
  exact ⟨_, _, _, rfl, hperm⟩

end Resonator

namespace Resonator

/-! ### The integer square root and EUC_2D rounding -/

lemma floorSqrtGo_spec (m : ℕ) :
    ∀ (fuel r : ℕ), r * r ≤ m → m < (r + fuel + 1) * (r + fuel + 1) →
      floorSqrtGo m fuel r * floorSqrtGo m fuel r ≤ m ∧
        m < (floorSqrtGo m fuel r + 1) * (floorSqrtGo m fuel r + 1) := by
  intro fuel
  induction fuel with
  | zero =>
    intro r h1 h2
    simp only [floorSqrtGo]
    exact ⟨h1, by simpa using h2⟩
  | succ k ih =>
    intro r h1 h2
    rw [floorSqrtGo]
    by_cases hc : (r + 1) * (r + 1) ≤ m
    · rw [if_pos hc]
      apply ih (r + 1) hc
      have he : r + 1 + k + 1 = r + (k + 1) + 1 := by omega
      rw [he]
      exact h2
    · rw [if_neg hc]
      exact ⟨h1, Nat.lt_of_not_le hc⟩

lemma floorSqrt_spec (m : ℕ) :
    floorSqrt m * floorSqrt m ≤ m ∧ m < (floorSqrt m + 1) * (floorSqrt m + 1) := by
  unfold floorSqrt
  refine floorSqrtGo_spec m m 0 (by simp) ?_
  have he : 0 + m + 1 = m + 1 := by omega
  rw [he]
  exact Nat.lt_of_lt_of_le (Nat.lt_succ_self m) (Nat.le_mul_of_pos_left (m + 1) (by omega))

lemma roundSqrt_eq_round (m : ℕ) : ((roundSqrt m : ℕ) : ℤ) = round (Real.sqrt (m : ℝ)) := by
  obtain ⟨h1, h2⟩ := floorSqrt_spec m
  have hr1 : ((floorSqrt m * floorSqrt m : ℕ) : ℝ) ≤ (m : ℝ) := Nat.cast_le.mpr h1
  have hr2 : (m : ℝ) < (((floorSqrt m + 1) * (floorSqrt m + 1) : ℕ) : ℝ) := Nat.cast_lt.mpr h2
  push_cast at hr1 hr2
  have hcast1 : ((floorSqrt m : ℝ)) ^ 2 ≤ (m : ℝ) := by nlinarith [hr1]
  have hcast2 : (m : ℝ) < ((floorSqrt m : ℝ) + 1) ^ 2 := by nlinarith [hr2]
  have hlow : ((floorSqrt m : ℝ)) ≤ Real.sqrt (m : ℝ) := by
    rw [show ((floorSqrt m : ℝ)) = Real.sqrt (((floorSqrt m : ℝ)) ^ 2) by
      rw [Real.sqrt_sq (by positivity)]]
    exact Real.sqrt_le_sqrt hcast1
  have hup : Real.sqrt (m : ℝ) < (floorSqrt m : ℝ) + 1 :=
    (Real.sqrt_lt' (by positivity)).mpr hcast2
  simp only [roundSqrt]
  by_cases hc : floorSqrt m * floorSqrt m + floorSqrt m < m
  · rw [if_pos hc]
    have hgt : (floorSqrt m : ℝ) + 1 / 2 < Real.sqrt (m : ℝ) := by
      refine (Real.lt_sqrt (by positivity)).mpr ?_
      have : floorSqrt m * floorSqrt m + floorSqrt m + 1 ≤ m := by omega
      have hr : ((floorSqrt m * floorSqrt m + floorSqrt m + 1 : ℕ) : ℝ) ≤ (m : ℝ) :=
        Nat.cast_le.mpr this
      push_cast at hr
      nlinarith [hr]
    symm
    rw [round_eq]
    refine Int.floor_eq_iff.mpr ⟨?_, ?_⟩
    · push_cast
      linarith
    · push_cast
      linarith
  · rw [if_neg hc]
    have hlt : Real.sqrt (m : ℝ) < (floorSqrt m : ℝ) + 1 / 2 := by
      refine (Real.sqrt_lt' (by positivity)).mpr ?_
      have hle : m ≤ floorSqrt m * floorSqrt m + floorSqrt m := by omega
      have hr : ((m : ℕ) : ℝ) ≤ ((floorSqrt m * floorSqrt m + floorSqrt m : ℕ) : ℝ) :=
        Nat.cast_le.mpr hle
      push_cast at hr
      nlinarith [hr]
    symm
    rw [round_eq]
    refine Int.floor_eq_iff.mpr ⟨?_, ?_⟩
    · push_cast
      linarith
    · push_cast
      linarith

lemma getD_map_range {α : Type} (n : ℕ) (f : ℕ → α) (i : ℕ) (dflt : α) (h : i < n) :
    ((List.range n).map f).getD i dflt = f i := by
  rw [List.getD_eq_getElem?_getD, List.getElem?_map, List.getElem?_range h]
  rfl

lemma sqDist_comm (p q : ℤ × ℤ) : sqDist p q = sqDist q p := by
  unfold sqDist
  congr 1
  ring

lemma compute_distance_matrix_entry (coords : List (ℤ × ℤ)) (i j : ℕ)
    (hi : i < coords.length) (hj : j < coords.length) :
    dOf (compute_distance_matrix coords) i j =
      if i = j then 0
      else roundSqrt (sqDist (coords.getD i (0, 0)) (coords.getD j (0, 0))) := by
  unfold dOf compute_distance_matrix
  rw [getD_map_range coords.length _ i [] hi]
  rw [getD_map_range coords.length _ j 0 hj]

end Resonator

namespace Resonator

/-- C6: for every coordinate list (including `n = 0` and `n = 1`),
`compute_distance_matrix` returns an n×n matrix that is symmetric, has a
zero diagonal, has every entry a non-negative integer (the entries live
in `ℕ`), and whose entry `[i][j]` for `i ≠ j` is the Euclidean distance
between coordinates `i` and `j` rounded to the nearest integer. -/
theorem C6_distance_matrix_properties (coords : List (ℤ × ℤ)) :
    (compute_distance_matrix coords).length = coords.length ∧
    (∀ row ∈ compute_distance_matrix coords, row.length = coords.length) ∧
    (∀ i j : ℕ, i < coords.length → j < coords.length →
      dOf (compute_distance_matrix coords) i j = dOf (compute_distance_matrix coords) j i) ∧
    (∀ i : ℕ, i < coords.length → dOf (compute_distance_matrix coords) i i = 0) ∧
    (∀ i j : ℕ, 0 ≤ dOf (compute_distance_matrix coords) i j) ∧
    (∀ i j : ℕ, i < coords.length → j < coords.length → i ≠ j →
      ((dOf (compute_distance_matrix coords) i j : ℕ) : ℤ) =
        round (Real.sqrt
          ((((coords.getD i (0, 0)).1 - (coords.getD j (0, 0)).1 : ℤ) : ℝ) ^ 2 +
            (((coords.getD i (0, 0)).2 - (coords.getD j (0, 0)).2 : ℤ) : ℝ) ^ 2))) := by
  refine ⟨?_, ?_, ?_, ?_, ?_, ?_⟩
  · unfold compute_distance_matrix
    rw [List.length_map, List.length_range]
  · intro row hrow
    unfold compute_distance_matrix at hrow
    rw [List.mem_map] at hrow
    obtain ⟨i, _, rfl⟩ := hrow
    rw [List.length_map, List.length_range]
  · intro i j hi hj
    rw [compute_distance_matrix_entry coords i j hi hj,
      compute_distance_matrix_entry coords j i hj hi]
    by_cases hij : i = j
    · rw [if_pos hij, if_pos hij.symm]
    · rw [if_neg hij, if_neg (fun h => hij h.symm),
        sqDist_comm (coords.getD i (0, 0)) (coords.getD j (0, 0))]
  · intro i hi
    rw [compute_distance_matrix_entry coords i i hi hi, if_pos rfl]
  · intro i j
    exact Nat.zero_le _
  · intro i j hi hj hij
    rw [compute_distance_matrix_entry coords i j hi hj, if_neg hij, roundSqrt_eq_round]
    have hnn : (0 : ℤ) ≤ ((coords.getD i (0, 0)).1 - (coords.getD j (0, 0)).1) ^ 2 +
        ((coords.getD i (0, 0)).2 - (coords.getD j (0, 0)).2) ^ 2 := by positivity
    have hz : ((sqDist (coords.getD i (0, 0)) (coords.getD j (0, 0)) : ℕ) : ℤ) =
        ((coords.getD i (0, 0)).1 - (coords.getD j (0, 0)).1) ^ 2 +
          ((coords.getD i (0, 0)).2 - (coords.getD j (0, 0)).2) ^ 2 := by
      unfold sqDist
      exact Int.toNat_of_nonneg hnn
    have harg : (((coords.getD i (0, 0)).1 - (coords.getD j (0, 0)).1 : ℤ) : ℝ) ^ 2 +
        (((coords.getD i (0, 0)).2 - (coords.getD j (0, 0)).2 : ℤ) : ℝ) ^ 2 =
        ((sqDist (coords.getD i (0, 0)) (coords.getD j (0, 0)) : ℕ) : ℝ) := by
      have hc := congrArg (Int.cast : ℤ → ℝ) hz
      push_cast at hc ⊢
      linarith [hc]
    rw [harg]

/-- C6 witness: the rounded-Euclidean entry description instantiated on
the unit square at the adjacent pair `(0, 1)`. -/
theorem C6_distance_matrix_properties_witness :
    ((dOf (compute_distance_matrix unitSquare) 0 1 : ℕ) : ℤ) =
      round (Real.sqrt
        ((((unitSquare.getD 0 (0, 0)).1 - (unitSquare.getD 1 (0, 0)).1 : ℤ) : ℝ) ^ 2 +
          (((unitSquare.getD 0 (0, 0)).2 - (unitSquare.getD 1 (0, 0)).2 : ℤ) : ℝ) ^ 2)) :=
  (C6_distance_matrix_properties unitSquare).2.2.2.2.2 0 1 (by decide) (by decide) (by decide)

end Resonator

namespace Resonator

lemma harmonic_values_amp_zero (cosF : ℚ → ℚ) (piQ : ℚ) (n N : ℕ) (shiftv : ℚ) :
    harmonic_values cosF piQ n N 0 shiftv = List.replicate n 0 := by
  simp only [harmonic_values]
  have hfold : ∀ (θ : ℚ) (L : List ℕ) (s : ℚ),
      L.foldl (fun s (k : ℕ) => s + ((0 : ℚ) / (k : ℚ)) * cosF ((k : ℚ) * θ)) s = s := by
    intro θ L
    induction L with
    | nil => intro s; rfl
    | cons x xs ih =>
      intro s
      rw [List.foldl_cons]
      have hz : s + ((0 : ℚ) / (x : ℚ)) * cosF ((x : ℚ) * θ) = s := by
        rw [zero_div, zero_mul, add_zero]
      rw [hz]
      exact ih s
  have hmap : ∀ i ∈ List.range n,
      (List.range' 1 N).foldl
        (fun s (k : ℕ) => s + ((0 : ℚ) / (k : ℚ)) * cosF ((k : ℚ) *
          (2 * piQ * (((i : ℚ) + shiftv) / (n : ℚ))))) 0 = (fun _ : ℕ => (0 : ℚ)) i := by
    intro i _
    exact hfold (2 * piQ * (((i : ℚ) + shiftv) / (n : ℚ))) (List.range' 1 N) 0
  rw [List.map_congr_left hmap, List.map_const', List.length_range]

lemma replicate_getD_zero (n a : ℕ) : (List.replicate n (0 : ℚ)).getD a 0 = 0 := by
  rw [List.getD_eq_getElem?_getD, List.getElem?_replicate]
  by_cases h : a < n
  · rw [if_pos h]
    rfl
  · rw [if_neg h]
    rfl

/-- C7: for every `n ≥ 1` (and any model of `math.cos` and `math.pi`),
the harmonic scores with `N = 1`, amplitude 0 and shift 0 are all zero,
and `generate_resonator_route` returns the identity permutation
`[0, 1, ..., n-1]` because ties are broken by original index order under
the stable sort. -/
theorem C7_zero_amplitude_identity_route (cosF : ℚ → ℚ) (piQ : ℚ) (n : ℕ) (hn : 1 ≤ n) :
    harmonic_values cosF piQ n 1 0 0 = List.replicate n 0 ∧
    generate_resonator_route cosF piQ n 1 0 0 = List.range n := by
  refine ⟨harmonic_values_amp_zero cosF piQ n 1 0, ?_⟩
  simp only [generate_resonator_route, harmonic_values_amp_zero]
  apply List.mergeSort_of_sorted
  refine List.pairwise_of_forall ?_
  intro a b
  rw [replicate_getD_zero, replicate_getD_zero]
  simp

/-- C7 witness: the all-zero scores and the identity route at `n = 3`,
with `cos` modelled by the identity function and `pi` by 0. -/
theorem C7_zero_amplitude_identity_route_witness :
    1 ≤ 3 ∧
    (harmonic_values (fun x => x) 0 3 1 0 0 = List.replicate 3 0 ∧
      generate_resonator_route (fun x => x) 0 3 1 0 0 = List.range 3) :=
  ⟨by decide, C7_zero_amplitude_identity_route (fun x => x) 0 3 (by decide)⟩

end Resonator

namespace Resonator

lemma map_mapIdx_snd_eq {α β γ : Type} (l : List α) (f : ℕ → α → β) (h : β → γ) (g : α → γ)
    (hfg : ∀ i a, h (f i a) = g a) : (l.mapIdx f).map h = l.map g := by
  rw [List.mapIdx_eq_enum_map, List.map_map]
  have h1 : ∀ q ∈ l.enum, (h ∘ Function.uncurry f) q = (g ∘ Prod.snd) q := by
    intro q _
    rcases q with ⟨i, a⟩
    exact hfg i a
  rw [List.map_congr_left h1, ← List.map_map, List.enum_map_snd]

lemma map_mapIdx_fst_eq {α β γ : Type} (l : List α) (f : ℕ → α → β) (h : β → γ) (g : ℕ → γ)
    (hfg : ∀ i a, h (f i a) = g i) : (l.mapIdx f).map h = (List.range l.length).map g := by
  rw [List.mapIdx_eq_enum_map, List.map_map]
  have h1 : ∀ q ∈ l.enum, (h ∘ Function.uncurry f) q = (g ∘ Prod.fst) q := by
    intro q _
    rcases q with ⟨i, a⟩
    exact hfg i a
  rw [List.map_congr_left h1, ← List.map_map, List.enum_map_fst]

lemma grid_search_map_dropTime (cosF : ℚ → ℚ) (piQ : ℚ) (coords : List (ℤ × ℤ))
    (N_values : List ℕ) (amplitude_values shift_values : List ℚ)
    (seeds two_opt_iterations : ℕ) (clock : ℕ → ℤ) :
    (grid_search cosF piQ coords N_values amplitude_values shift_values seeds
        two_opt_iterations clock).map dropTime =
      (sweepCombos N_values amplitude_values shift_values seeds).map (fun combo =>
        (combo.1, combo.2.1, combo.2.2.1, combo.2.2.2,
          (run_trial cosF piQ coords (dOf (compute_distance_matrix coords)) combo.1 combo.2.1
            combo.2.2.1 two_opt_iterations).1,
          (run_trial cosF piQ coords (dOf (compute_distance_matrix coords)) combo.1 combo.2.1
            combo.2.2.1 two_opt_iterations).2)) := by
  simp only [grid_search]
  exact map_mapIdx_snd_eq _ _ dropTime _ (fun i a => rfl)

lemma grid_search_map_time (cosF : ℚ → ℚ) (piQ : ℚ) (coords : List (ℤ × ℤ))
    (N_values : List ℕ) (amplitude_values shift_values : List ℚ)
    (seeds two_opt_iterations : ℕ) (clock : ℕ → ℤ) :
    (grid_search cosF piQ coords N_values amplitude_values shift_values seeds
        two_opt_iterations clock).map SweepRecord.time_seconds =
      (List.range (sweepCombos N_values amplitude_values shift_values seeds).length).map
        (fun t => clock (2 * t + 1) - clock (2 * t)) := by
  simp only [grid_search]
  exact map_mapIdx_fst_eq _ _ SweepRecord.time_seconds _ (fun i a => rfl)

/-- C9 counterexample: the very same sweep configuration run with two
different sequences of timer readings produces different `SweepRecord`
sequences, because the `time_seconds` field records elapsed wall-clock
time; so re-running an identical configuration does not in general yield
records that are equal in every field. -/
theorem C9_counterexample :
    grid_search (fun x => x) 0 [(0, 0), (0, 3)] [1] [0] [0] 1 1 (fun _ => 0) ≠
      grid_search (fun x => x) 0 [(0, 0), (0, 3)] [1] [0] [0] 1 1 (fun t => (t : ℤ)) := by
  intro h
  have hmap := congrArg (List.map SweepRecord.time_seconds) h
  rw [grid_search_map_time, grid_search_map_time] at hmap
  simp [sweepCombos] at hmap

/-- C9 (amended): running `grid_search` twice with identical inputs
yields `SweepRecord` sequences with the same number of records in the
same nested iteration order and equal values in every field except
`time_seconds`, which depends on the timer readings of that run. -/
theorem C9_sweep_deterministic_except_time (cosF : ℚ → ℚ) (piQ : ℚ)
    (coords : List (ℤ × ℤ)) (N_values : List ℕ) (amplitude_values shift_values : List ℚ)
    (seeds two_opt_iterations : ℕ) (clock1 clock2 : ℕ → ℤ) :
    (grid_search cosF piQ coords N_values amplitude_values shift_values seeds
        two_opt_iterations clock1).map dropTime =
      (grid_search cosF piQ coords N_values amplitude_values shift_values seeds
        two_opt_iterations clock2).map dropTime := by
  rw [grid_search_map_dropTime, grid_search_map_dropTime]

/-- C10: for every request whose body contains a non-empty coordinate
list, the success branch of `solve_tsp` is unreachable and the endpoint
returns the error response with HTTP status 500: the call binds the
keyword `ils_iterations`, which is not among the parameter names of the
`run_trial` defined under `src/`, so a `TypeError` is raised before any
result is produced and the `except` clause answers 500. -/
theorem C10_solve_tsp_always_errors (coords : List (ℤ × ℤ)) (h : coords ≠ []) :
    keywordsAccepted run_trial_param_names solve_keyword_names = false ∧
    solve_tsp coords = (500, true) := by
  refine ⟨by decide, ?_⟩
  unfold solve_tsp
  rw [if_neg (by simpa using h), if_neg (by decide)]

/-- C10 witness: the one-point coordinate list `[(0, 0)]` is non-empty
and gets the 500 error response. -/
theorem C10_solve_tsp_always_errors_witness :
    ([((0 : ℤ), (0 : ℤ))] ≠ ([] : List (ℤ × ℤ))) ∧
    (keywordsAccepted run_trial_param_names solve_keyword_names = false ∧
      solve_tsp [(0, 0)] = (500, true)) :=
  ⟨by decide, C10_solve_tsp_always_errors [(0, 0)] (by decide)⟩

end Resonator
